import Mathlib

/-!
Verification of the `Meta` DSL function of `dsl/meta.go` (goa expression
evaluation engine) against its natural-language specification.

The Go value `expr.MetaExpr` is `map[string][]string`, where the zero value
`nil` is distinct from an allocated empty map.  We model the allocated map as
an association list with unique keys (`MetaMap`) and the possibly-nil map as
`Option MetaMap`.  The expression kinds handled by the type switch in `Meta`
become the constructors of an inductive type `Expr`; the evaluation context
(`eval.Current`, the context stack, and `eval.IncompatibleDSL` of the error
collector) is modelled from the spec since the `eval` package is not part of
this slice.  A Go `nil`-pointer panic is modelled by `Meta` returning `none`.
-/

namespace Goa

/-- An allocated Go `map[string][]string`, as an association list. -/
abbrev MetaMap := List (String × List String)

/-- Go `expr.MetaExpr`: a `map[string][]string` whose zero value is `nil`
(`none`). -/
abbrev MetaExpr := Option MetaMap

/-- Go map read `m[k]` returning whether the key is present (`m[k]` together
with the `ok` flag): `none` when the key is absent. -/
def mapGet : MetaMap → String → Option (List String)
  | [], _ => none
  | (k', v) :: rest, k => if k' = k then some v else mapGet rest k

/-- Go map assignment `m[k] = v`: replaces the value under an existing key,
otherwise installs the key. -/
def mapSet : MetaMap → String → List String → MetaMap
  | [], k, v => [(k, v)]
  | (k', v') :: rest, k, v =>
      if k' = k then (k', v) :: rest else (k', v') :: mapSet rest k v

/-- The value sequence stored under `k` (a missing key reads as the empty
sequence, exactly as a `nil` slice does in Go). -/
def metaValues (me : MetaExpr) (k : String) : List String :=
  (mapGet (me.getD []) k).getD []

/-- The closure `appendMeta` of `Meta` (`dsl/meta.go`):

    if meta == nil { meta = make(map[string][]string) }
    meta[name] = append(meta[name], value...)
    return meta
-/
def appendMeta (meta : MetaExpr) (name : String) (value : List String) :
    MetaExpr :=
  let m : MetaMap := meta.getD []
  some (mapSet m name (((mapGet m name).getD []) ++ value))

/-- Go `expr.AttributeExpr`: its metadata map plus its remaining fields,
which `Meta` never touches, collapsed into an opaque `rest`. -/
structure AttributeExpr where
  Meta : MetaExpr
  rest : String
deriving DecidableEq, Repr

/-- The dynamic kinds of `eval.Expression` distinguished by the type switch
in `Meta`: the eleven kinds that directly carry a `Meta` field, the
`expr.CompositeExpr` capability (wraps an attribute, reached through its
`Attribute()` accessor, possibly a `nil` pointer), and `OtherExpr` standing
for every remaining kind (the `default` branch).  Each constructor keeps an
opaque `rest` for the fields `Meta` does not touch; `CompositeExpr`
additionally keeps `wMeta`, a metadata map a concrete wrapper type may own,
which the composite branch never reads or writes. -/
inductive Expr where
  | APIExpr (Meta : MetaExpr) (rest : String)
  | ServerExpr (Meta : MetaExpr) (rest : String)
  | AttributeExprK (att : AttributeExpr)
  | ResultTypeExpr (Meta : MetaExpr) (rest : String)
  | MethodExpr (Meta : MetaExpr) (rest : String)
  | ServiceExpr (Meta : MetaExpr) (rest : String)
  | HTTPServiceExpr (Meta : MetaExpr) (rest : String)
  | HTTPEndpointExpr (Meta : MetaExpr) (rest : String)
  | RouteExpr (Meta : MetaExpr) (rest : String)
  | HTTPFileServerExpr (Meta : MetaExpr) (rest : String)
  | HTTPResponseExpr (Meta : MetaExpr) (rest : String)
  | CompositeExpr (wMeta : MetaExpr) (att : Option AttributeExpr) (rest : String)
  | OtherExpr (rest : String)
deriving DecidableEq, Repr

/-- Modelled from the spec: an Error Record of the Error Collector; the only
class `Meta` can record is the incompatible-context definition error. -/
inductive DSLError where
  | incompatibleDSL
deriving DecidableEq, Repr

/-- Modelled from the spec: the state of one evaluation run — the context
stack (head is the top frame) and the Error Collector's ordered record
list. -/
structure EvalState where
  stack : List Expr
  errors : List DSLError
deriving DecidableEq, Repr

/-- Modelled from the spec: `eval.Current()` returns the top frame, or the
sentinel "no context" value (here `none`) when no context is open; the
sentinel matches no case of the type switch. -/
def Current (s : EvalState) : Option Expr :=
  s.stack.head?

/-- Modelled from the spec: `eval.IncompatibleDSL()` records an
incompatible-context definition error through the Error Collector and
mutates no expression. -/
def IncompatibleDSL (s : EvalState) : EvalState :=
  { s with errors := s.errors ++ [DSLError.incompatibleDSL] }

/-- In-place mutation of the current (top-of-stack) expression. -/
def setCurrent (s : EvalState) (e : Expr) : EvalState :=
  { s with stack := e :: s.stack.tail }

/-- The body of `Meta(name string, value ...string)` (`dsl/meta.go`): the
type switch on `eval.Current()`.  The result is `none` exactly when the Go
code would dereference a `nil` pointer (a composite whose `Attribute()` is
`nil`); every other path yields the updated evaluation state. -/
def Meta (name : String) (value : List String) (s : EvalState) :
    Option EvalState :=
  match Current s with
  | some (.APIExpr m r) =>
      some (setCurrent s (.APIExpr (appendMeta m name value) r))
  | some (.ServerExpr m r) =>
      some (setCurrent s (.ServerExpr (appendMeta m name value) r))
  | some (.AttributeExprK a) =>
      some (setCurrent s (.AttributeExprK { a with Meta := appendMeta a.Meta name value }))
  | some (.ResultTypeExpr m r) =>
      some (setCurrent s (.ResultTypeExpr (appendMeta m name value) r))
  | some (.MethodExpr m r) =>
      some (setCurrent s (.MethodExpr (appendMeta m name value) r))
  | some (.ServiceExpr m r) =>
      some (setCurrent s (.ServiceExpr (appendMeta m name value) r))
  | some (.HTTPServiceExpr m r) =>
      some (setCurrent s (.HTTPServiceExpr (appendMeta m name value) r))
  | some (.HTTPEndpointExpr m r) =>
      some (setCurrent s (.HTTPEndpointExpr (appendMeta m name value) r))
  | some (.RouteExpr m r) =>
      some (setCurrent s (.RouteExpr (appendMeta m name value) r))
  | some (.HTTPFileServerExpr m r) =>
      some (setCurrent s (.HTTPFileServerExpr (appendMeta m name value) r))
  | some (.HTTPResponseExpr m r) =>
      some (setCurrent s (.HTTPResponseExpr (appendMeta m name value) r))
  | some (.CompositeExpr wm att r) =>
      match att with
      | some a =>
          some (setCurrent s (.CompositeExpr wm (some { a with Meta := appendMeta a.Meta name value }) r))
      | none => none
  | some (.OtherExpr _) => some (IncompatibleDSL s)
  | none => some (IncompatibleDSL s)

/-- The metadata map a kind directly carries (`none` for the composite
capability and for unsupported kinds). -/
def metaOf : Expr → Option MetaExpr
  | .APIExpr m _ => some m
  | .ServerExpr m _ => some m
  | .AttributeExprK a => some a.Meta
  | .ResultTypeExpr m _ => some m
  | .MethodExpr m _ => some m
  | .ServiceExpr m _ => some m
  | .HTTPServiceExpr m _ => some m
  | .HTTPEndpointExpr m _ => some m
  | .RouteExpr m _ => some m
  | .HTTPFileServerExpr m _ => some m
  | .HTTPResponseExpr m _ => some m
  | .CompositeExpr _ _ _ => none
  | .OtherExpr _ => none

/-- Replace the directly carried metadata map of a kind (identity on the
composite capability and on unsupported kinds). -/
def setMeta : Expr → MetaExpr → Expr
  | .APIExpr _ r, m => .APIExpr m r
  | .ServerExpr _ r, m => .ServerExpr m r
  | .AttributeExprK a, m => .AttributeExprK { a with Meta := m }
  | .ResultTypeExpr _ r, m => .ResultTypeExpr m r
  | .MethodExpr _ r, m => .MethodExpr m r
  | .ServiceExpr _ r, m => .ServiceExpr m r
  | .HTTPServiceExpr _ r, m => .HTTPServiceExpr m r
  | .HTTPEndpointExpr _ r, m => .HTTPEndpointExpr m r
  | .RouteExpr _ r, m => .RouteExpr m r
  | .HTTPFileServerExpr _ r, m => .HTTPFileServerExpr m r
  | .HTTPResponseExpr _ r, m => .HTTPResponseExpr m r
  | .CompositeExpr wm att r, _ => .CompositeExpr wm att r
  | .OtherExpr r, _ => .OtherExpr r

/-- The metadata map a `Meta` call would receive: the node's own map for the
eleven direct kinds, the wrapped attribute's map for the composite
capability. -/
def receiverMeta : Expr → Option MetaExpr
  | .CompositeExpr _ att _ => att.map (fun a => a.Meta)
  | .OtherExpr _ => none
  | e => metaOf e

/-- Lookup in the receiving metadata map (`none` when there is no receiving
map or the key is absent). -/
def receiverLookup (e : Expr) (k : String) : Option (List String) :=
  (receiverMeta e).bind fun me => mapGet (me.getD []) k

/-- Erase the receiving metadata map of a node, keeping every other field:
two nodes are equal under `eraseReceiverMeta` exactly when they agree on
everything except that map. -/
def eraseReceiverMeta : Expr → Expr
  | .CompositeExpr wm att r =>
      .CompositeExpr wm (att.map fun a => { a with Meta := none }) r
  | e => setMeta e none

/-- The nine concrete kinds named in the spec's data model: API, Server,
Service, Method, Route, FileServer, Response, ResultType, and the generic
Attribute. -/
def isDataModelKind : Expr → Bool
  | .APIExpr _ _ => true
  | .ServerExpr _ _ => true
  | .ServiceExpr _ _ => true
  | .MethodExpr _ _ => true
  | .RouteExpr _ _ => true
  | .HTTPFileServerExpr _ _ => true
  | .HTTPResponseExpr _ _ => true
  | .ResultTypeExpr _ _ => true
  | .AttributeExprK _ => true
  | _ => false

/-- Transposition of two key strings, used to state that `Meta` treats keys
as opaque labels. -/
def swapKey (k1 k2 k : String) : String :=
  if k = k1 then k2 else if k = k2 then k1 else k

/-- Apply a key transposition to every key of an allocated metadata map. -/
def renameMap (k1 k2 : String) (m : MetaMap) : MetaMap :=
  m.map (fun p => (swapKey k1 k2 p.1, p.2))

/-- Apply a key transposition to a possibly-nil metadata map. -/
def renameMeta (k1 k2 : String) : MetaExpr → MetaExpr :=
  Option.map (renameMap k1 k2)

/-- Apply a key transposition to an attribute's metadata map. -/
def renameAttr (k1 k2 : String) (a : AttributeExpr) : AttributeExpr :=
  { a with Meta := renameMeta k1 k2 a.Meta }

/-- Apply a key transposition to every metadata map of a node. -/
def renameExpr (k1 k2 : String) : Expr → Expr
  | .APIExpr m r => .APIExpr (renameMeta k1 k2 m) r
  | .ServerExpr m r => .ServerExpr (renameMeta k1 k2 m) r
  | .AttributeExprK a => .AttributeExprK (renameAttr k1 k2 a)
  | .ResultTypeExpr m r => .ResultTypeExpr (renameMeta k1 k2 m) r
  | .MethodExpr m r => .MethodExpr (renameMeta k1 k2 m) r
  | .ServiceExpr m r => .ServiceExpr (renameMeta k1 k2 m) r
  | .HTTPServiceExpr m r => .HTTPServiceExpr (renameMeta k1 k2 m) r
  | .HTTPEndpointExpr m r => .HTTPEndpointExpr (renameMeta k1 k2 m) r
  | .RouteExpr m r => .RouteExpr (renameMeta k1 k2 m) r
  | .HTTPFileServerExpr m r => .HTTPFileServerExpr (renameMeta k1 k2 m) r
  | .HTTPResponseExpr m r => .HTTPResponseExpr (renameMeta k1 k2 m) r
  | .CompositeExpr wm att r =>
      .CompositeExpr (renameMeta k1 k2 wm) (att.map (renameAttr k1 k2)) r
  | .OtherExpr r => .OtherExpr r

/-- Apply a key transposition to every metadata map of an evaluation state. -/
def renameState (k1 k2 : String) (s : EvalState) : EvalState :=
  { stack := s.stack.map (renameExpr k1 k2), errors := s.errors }

theorem mapGet_mapSet_self (m : MetaMap) (k : String) (v : List String) :
    mapGet (mapSet m k v) k = some v := by
  induction m with
  | nil => simp [mapSet, mapGet]
  | cons p rest ih =>
    obtain ⟨k', v'⟩ := p
    by_cases h : k' = k
    · simp [mapSet, mapGet, h]
    · simp [mapSet, mapGet, h, ih]

theorem mapGet_mapSet_ne (m : MetaMap) (k k' : String) (v : List String)
    (h : k' ≠ k) : mapGet (mapSet m k v) k' = mapGet m k' := by
  induction m with
  | nil => simp [mapSet, mapGet, Ne.symm h]
  | cons p rest ih =>
    obtain ⟨k'', v''⟩ := p
    by_cases hk : k'' = k
    · subst hk
      simp [mapSet, mapGet, Ne.symm h]
    · simp only [mapSet, if_neg hk]
      by_cases hk' : k'' = k'
      · simp [mapGet, hk']
      · simp [mapGet, hk', ih]

theorem metaValues_appendMeta_self (me : MetaExpr) (k : String)
    (vs : List String) :
    metaValues (appendMeta me k vs) k = metaValues me k ++ vs := by
  simp [appendMeta, metaValues, mapGet_mapSet_self]

theorem mapGet_appendMeta_ne (me : MetaExpr) (k k' : String)
    (vs : List String) (h : k' ≠ k) :
    mapGet ((appendMeta me k vs).getD []) k' = mapGet (me.getD []) k' := by
  simp [appendMeta, mapGet_mapSet_ne _ _ _ _ h]

theorem appendMeta_none (k : String) (vs : List String) :
    appendMeta none k vs = some [(k, vs)] := by
  simp [appendMeta, mapGet, mapSet]

theorem Meta_direct (e : Expr) (me : MetaExpr) (h : metaOf e = some me)
    (k : String) (vs : List String) (stk : List Expr)
    (errs : List DSLError) :
    Meta k vs ⟨e :: stk, errs⟩ =
      some ⟨setMeta e (appendMeta me k vs) :: stk, errs⟩ := by
  cases e <;> simp_all [Meta, Current, setCurrent, metaOf, setMeta]

theorem metaOf_setMeta (e : Expr) (m : MetaExpr)
    (h : (metaOf e).isSome) : metaOf (setMeta e m) = some m := by
  cases e <;> simp_all [metaOf, setMeta]

theorem Meta_composite_some (wm : MetaExpr) (a : AttributeExpr) (r : String)
    (k : String) (vs : List String) (stk : List Expr)
    (errs : List DSLError) :
    Meta k vs ⟨Expr.CompositeExpr wm (some a) r :: stk, errs⟩ =
      some ⟨Expr.CompositeExpr wm
        (some { a with Meta := appendMeta a.Meta k vs }) r :: stk, errs⟩ := by
  simp [Meta, Current, setCurrent]

theorem Meta_other (r : String) (k : String) (vs : List String)
    (stk : List Expr) (errs : List DSLError) :
    Meta k vs ⟨Expr.OtherExpr r :: stk, errs⟩ =
      some ⟨Expr.OtherExpr r :: stk, errs ++ [DSLError.incompatibleDSL]⟩ := by
  simp [Meta, Current, IncompatibleDSL]

theorem Meta_empty_stack (k : String) (vs : List String)
    (errs : List DSLError) :
    Meta k vs ⟨[], errs⟩ = some ⟨[], errs ++ [DSLError.incompatibleDSL]⟩ := by
  simp [Meta, Current, IncompatibleDSL]

theorem swapKey_involutive (k1 k2 k : String) :
    swapKey k1 k2 (swapKey k1 k2 k) = k := by
  by_cases h1 : k = k1
  · subst h1
    by_cases h2 : k2 = k <;> simp [swapKey, h2]
  · by_cases h2 : k = k2
    · subst h2
      simp [swapKey, h1]
    · simp [swapKey, h1, h2]

theorem swapKey_inj (k1 k2 a b : String)
    (h : swapKey k1 k2 a = swapKey k1 k2 b) : a = b := by
  have hc := congrArg (swapKey k1 k2) h
  rwa [swapKey_involutive, swapKey_involutive] at hc

theorem mapGet_renameMap (k1 k2 k : String) (m : MetaMap) :
    mapGet (renameMap k1 k2 m) (swapKey k1 k2 k) = mapGet m k := by
  induction m with
  | nil => rfl
  | cons p rest ih =>
    obtain ⟨k', v⟩ := p
    by_cases h : k' = k
    · simp [renameMap, mapGet, h]
    · have hne : swapKey k1 k2 k' ≠ swapKey k1 k2 k :=
        fun hc => h (swapKey_inj k1 k2 k' k hc)
      simpa [renameMap, mapGet, h, hne] using ih

theorem mapSet_renameMap (k1 k2 k : String) (v : List String) (m : MetaMap) :
    mapSet (renameMap k1 k2 m) (swapKey k1 k2 k) v =
      renameMap k1 k2 (mapSet m k v) := by
  induction m with
  | nil => rfl
  | cons p rest ih =>
    obtain ⟨k', v'⟩ := p
    by_cases h : k' = k
    · simp [renameMap, mapSet, h]
    · have hne : swapKey k1 k2 k' ≠ swapKey k1 k2 k :=
        fun hc => h (swapKey_inj k1 k2 k' k hc)
      simp [renameMap, mapSet, h, hne]
      simpa [renameMap] using ih

theorem appendMeta_rename (k1 k2 : String) (me : MetaExpr) (k : String)
    (vs : List String) :
    appendMeta (renameMeta k1 k2 me) (swapKey k1 k2 k) vs =
      renameMeta k1 k2 (appendMeta me k vs) := by
  cases me with
  | none => simp [appendMeta, renameMeta, renameMap, mapGet, mapSet]
  | some m =>
    simp only [appendMeta, renameMeta, Option.map_some', Option.getD_some,
      Option.some_inj]
    rw [mapGet_renameMap, mapSet_renameMap]

theorem Meta_rename (k1 k2 k : String) (vs : List String) (s : EvalState) :
    Meta (swapKey k1 k2 k) vs (renameState k1 k2 s) =
      Option.map (renameState k1 k2) (Meta k vs s) := by
  obtain ⟨stack, errors⟩ := s
  cases stack with
  | nil => simp [Meta, Current, renameState, IncompatibleDSL]
  | cons e stk =>
    cases e
    case CompositeExpr wm att r =>
      cases att with
      | none => simp [Meta, Current, renameState, renameExpr]
      | some a =>
        simp [Meta, Current, renameState, renameExpr, renameAttr, setCurrent,
          appendMeta_rename]
    all_goals
      simp [Meta, Current, renameState, renameExpr, renameAttr, setCurrent,
        IncompatibleDSL, appendMeta_rename]

theorem receiverMeta_cases (e : Expr) (me : MetaExpr)
    (h : receiverMeta e = some me) :
    metaOf e = some me ∨
      ∃ wm a r, e = Expr.CompositeExpr wm (some a) r ∧ a.Meta = me := by
  cases e
  case CompositeExpr wm att r =>
    cases att with
    | none => simp [receiverMeta] at h
    | some a =>
      simp only [receiverMeta, Option.map_some', Option.some_inj] at h
      exact Or.inr ⟨wm, a, r, rfl, h⟩
  case OtherExpr r => simp [receiverMeta] at h
  all_goals exact Or.inl h

theorem receiverMeta_of_metaOf (e : Expr) (me : MetaExpr)
    (h : metaOf e = some me) : receiverMeta e = some me := by
  cases e <;> simp_all [receiverMeta, metaOf]

theorem receiverMeta_setMeta (e : Expr) (m : MetaExpr)
    (h : (metaOf e).isSome) : receiverMeta (setMeta e m) = some m := by
  cases e <;> simp_all [receiverMeta, setMeta, metaOf]

theorem eraseReceiverMeta_setMeta (e : Expr) (m : MetaExpr)
    (h : (metaOf e).isSome) :
    eraseReceiverMeta (setMeta e m) = eraseReceiverMeta e := by
  cases e <;> simp_all [eraseReceiverMeta, setMeta, metaOf]

theorem appendMeta_nil (me : MetaExpr) (k : String) :
    appendMeta me k [] = some (mapSet (me.getD []) k (metaValues me k)) := by
  simp [appendMeta, metaValues]

/-- C1: on a node that carries a metadata map, two successive `Meta` calls
with the same key accumulate: the value sequence under that key after the
second call is the previously stored sequence followed by the first call's
values followed by the second call's values — appending, never replacing,
in call order, without deduplication. -/
theorem Meta_same_key_appends (e : Expr) (me : MetaExpr)
    (h : metaOf e = some me) (k : String) (vs1 vs2 : List String)
    (stk : List Expr) (errs : List DSLError) :
    ∃ e1 e2 me2,
      Meta k vs1 ⟨e :: stk, errs⟩ = some ⟨e1 :: stk, errs⟩ ∧
      Meta k vs2 ⟨e1 :: stk, errs⟩ = some ⟨e2 :: stk, errs⟩ ∧
      metaOf e2 = some me2 ∧
      metaValues me2 k = (metaValues me k ++ vs1) ++ vs2 := by
  have hsome : (metaOf e).isSome := by rw [h]; rfl
  refine ⟨setMeta e (appendMeta me k vs1),
    setMeta (setMeta e (appendMeta me k vs1))
      (appendMeta (appendMeta me k vs1) k vs2),
    appendMeta (appendMeta me k vs1) k vs2,
    Meta_direct e me h k vs1 stk errs,
    Meta_direct _ _ (metaOf_setMeta e _ hsome) k vs2 stk errs,
    metaOf_setMeta _ _ (by rw [metaOf_setMeta e _ hsome]; rfl), ?_⟩
  rw [metaValues_appendMeta_self, metaValues_appendMeta_self]

/-- Witness for C1: attaching `["a"]` then `["b", "c"]` under key `"k"` on a
fresh attribute node yields exactly `["a", "b", "c"]` under `"k"`. -/
theorem Meta_same_key_appends_witness :
    ∃ e1 e2 me2,
      Meta "k" ["a"] ⟨Expr.AttributeExprK ⟨none, ""⟩ :: [], []⟩ =
        some ⟨e1 :: [], []⟩ ∧
      Meta "k" ["b", "c"] ⟨e1 :: [], []⟩ = some ⟨e2 :: [], []⟩ ∧
      metaOf e2 = some me2 ∧
      metaValues me2 "k" =
        (metaValues (none : MetaExpr) "k" ++ ["a"]) ++ ["b", "c"] :=
  Meta_same_key_appends (Expr.AttributeExprK ⟨none, ""⟩) none rfl
    "k" ["a"] ["b", "c"] [] []

/-- C2: when the current expression only carries an Attribute (the composite
capability), `Meta` appends the values under the key to that wrapped
attribute's own metadata map, and leaves the wrapper node's own metadata map
`wMeta` and every other wrapper field untouched. -/
theorem Meta_composite_delegates (wm : MetaExpr) (a : AttributeExpr)
    (r : String) (k : String) (vs : List String) (stk : List Expr)
    (errs : List DSLError) :
    Meta k vs ⟨Expr.CompositeExpr wm (some a) r :: stk, errs⟩ =
      some ⟨Expr.CompositeExpr wm
        (some { a with Meta := appendMeta a.Meta k vs }) r :: stk, errs⟩ :=
  Meta_composite_some wm a r k vs stk errs

/-- C3: when the dynamic kind of the current expression neither carries a
metadata map nor the composite capability, `Meta` records an
incompatible-context definition error through the Error Collector, mutates
no expression, and returns normally (it does not panic). -/
theorem Meta_incompatible_kind (r : String) (k : String) (vs : List String)
    (stk : List Expr) (errs : List DSLError) :
    Meta k vs ⟨Expr.OtherExpr r :: stk, errs⟩ =
      some ⟨Expr.OtherExpr r :: stk, errs ++ [DSLError.incompatibleDSL]⟩ :=
  Meta_other r k vs stk errs

/-- C4: for every concrete kind named in the data model — API, Server,
Service, Method, Route, FileServer, Response, ResultType, and the generic
Attribute — `Meta` succeeds uniformly: it appends the given values under
the given key to that node's own metadata map and records no error. -/
theorem Meta_uniform_kinds (e : Expr) (h : isDataModelKind e = true)
    (k : String) (vs : List String) (stk : List Expr)
    (errs : List DSLError) :
    ∃ me e', metaOf e = some me ∧
      Meta k vs ⟨e :: stk, errs⟩ = some ⟨e' :: stk, errs⟩ ∧
      metaOf e' = some (appendMeta me k vs) ∧
      metaValues (appendMeta me k vs) k = metaValues me k ++ vs := by
  have hsome : (metaOf e).isSome := by
    cases e <;> simp_all [isDataModelKind, metaOf]
  obtain ⟨me, hme⟩ := Option.isSome_iff_exists.mp hsome
  exact ⟨me, setMeta e (appendMeta me k vs), hme,
    Meta_direct e me hme k vs stk errs,
    metaOf_setMeta e _ hsome,
    metaValues_appendMeta_self me k vs⟩

/-- Witness for C4: a `Meta` call on an API node appends its values and
records no error. -/
theorem Meta_uniform_kinds_witness :
    ∃ me e', metaOf (Expr.APIExpr none "api") = some me ∧
      Meta "protoc:include" ["/usr/include"]
          ⟨Expr.APIExpr none "api" :: [], []⟩ = some ⟨e' :: [], []⟩ ∧
      metaOf e' = some (appendMeta me "protoc:include" ["/usr/include"]) ∧
      metaValues (appendMeta me "protoc:include" ["/usr/include"])
          "protoc:include" =
        metaValues me "protoc:include" ++ ["/usr/include"] :=
  Meta_uniform_kinds (Expr.APIExpr none "api") rfl
    "protoc:include" ["/usr/include"] [] []

/-- C5: on a metadata-carrying node whose map does not exist yet (`nil`),
`Meta` first creates the map and then appends, so the first attachment on a
fresh node yields a map holding exactly the given key bound to exactly the
supplied values in order. -/
theorem Meta_creates_map (e : Expr) (h : metaOf e = some none)
    (k : String) (vs : List String) (stk : List Expr)
    (errs : List DSLError) :
    ∃ e', Meta k vs ⟨e :: stk, errs⟩ = some ⟨e' :: stk, errs⟩ ∧
      metaOf e' = some (some [(k, vs)]) := by
  have hsome : (metaOf e).isSome := by rw [h]; rfl
  refine ⟨setMeta e (appendMeta none k vs),
    Meta_direct e none h k vs stk errs, ?_⟩
  rw [metaOf_setMeta e _ hsome, appendMeta_none]

/-- Witness for C5: the first attachment on a fresh Service node installs a
one-entry map. -/
theorem Meta_creates_map_witness :
    ∃ e', Meta "openapi:generate" ["false"]
        ⟨Expr.ServiceExpr none "svc" :: [], []⟩ = some ⟨e' :: [], []⟩ ∧
      metaOf e' = some (some [("openapi:generate", ["false"])]) :=
  Meta_creates_map (Expr.ServiceExpr none "svc") rfl
    "openapi:generate" ["false"] [] []

/-- C6: a `Meta` call made outside any open context (empty context stack, so
`Current` yields the sentinel "no context" value) records an
incompatible-context error and neither creates nor mutates any
expression. -/
theorem Meta_no_open_context (k : String) (vs : List String)
    (errs : List DSLError) :
    Current ⟨[], errs⟩ = none ∧
    Meta k vs ⟨[], errs⟩ =
      some ⟨[], errs ++ [DSLError.incompatibleDSL]⟩ :=
  ⟨rfl, Meta_empty_stack k vs errs⟩

/-- C7: `Meta` treats keys as opaque labels: transposing two arbitrary key
names everywhere in the state and in the call commutes with `Meta`, so the
update performed under any key — including reserved generator keys such as
`"openapi:generate"` — is the same update modulo the name of the slot
written; no branch of the engine inspects the key's spelling. -/
theorem Meta_key_uniform (k1 k2 k : String) (vs : List String)
    (s : EvalState) :
    Meta (swapKey k1 k2 k) vs (renameState k1 k2 s) =
      Option.map (renameState k1 k2) (Meta k vs s) :=
  Meta_rename k1 k2 k vs s

/-- C8: a `Meta` call with key `k` changes only the value sequence stored
under `k` in the receiving metadata map (the node's own map, or the wrapped
attribute's map for the composite capability): erasing that one map yields
equal nodes before and after, lookups under every other key are unchanged,
and the error list and the rest of the stack are unchanged. -/
theorem Meta_frame_effect (e : Expr) (me : MetaExpr)
    (h : receiverMeta e = some me) (k : String) (vs : List String)
    (stk : List Expr) (errs : List DSLError) :
    ∃ e', Meta k vs ⟨e :: stk, errs⟩ = some ⟨e' :: stk, errs⟩ ∧
      eraseReceiverMeta e' = eraseReceiverMeta e ∧
      receiverMeta e' = some (appendMeta me k vs) ∧
      ∀ k', k' ≠ k → receiverLookup e' k' = receiverLookup e k' := by
  rcases receiverMeta_cases e me h with hm | ⟨wm, a, r, rfl, rfl⟩
  · have hsome : (metaOf e).isSome := by rw [hm]; rfl
    refine ⟨setMeta e (appendMeta me k vs),
      Meta_direct e me hm k vs stk errs,
      eraseReceiverMeta_setMeta e _ hsome,
      receiverMeta_setMeta e _ hsome, ?_⟩
    intro k' hk
    rw [receiverLookup, receiverLookup, receiverMeta_setMeta e _ hsome,
      receiverMeta_of_metaOf e me hm]
    simp [mapGet_appendMeta_ne _ _ _ _ hk]
  · refine ⟨Expr.CompositeExpr wm
      (some { a with Meta := appendMeta a.Meta k vs }) r,
      Meta_composite_some wm a r k vs stk errs, ?_, ?_, ?_⟩
    · simp [eraseReceiverMeta]
    · simp [receiverMeta]
    · intro k' hk
      simp [receiverLookup, receiverMeta, mapGet_appendMeta_ne _ _ _ _ hk]

/-- Witness for C8: attaching under `"k"` on a composite node holding a map
with another key leaves the wrapper, the other key's entry, and the errors
unchanged. -/
theorem Meta_frame_effect_witness :
    ∃ e', Meta "k" ["v"]
        ⟨Expr.CompositeExpr (some [("w", ["x"])])
          (some ⟨some [("k0", ["v0"])], "att"⟩) "resp" :: [], []⟩ =
        some ⟨e' :: [], []⟩ ∧
      eraseReceiverMeta e' =
        eraseReceiverMeta (Expr.CompositeExpr (some [("w", ["x"])])
          (some ⟨some [("k0", ["v0"])], "att"⟩) "resp") ∧
      receiverMeta e' =
        some (appendMeta (some [("k0", ["v0"])]) "k" ["v"]) ∧
      ∀ k', k' ≠ "k" →
        receiverLookup e' k' =
          receiverLookup (Expr.CompositeExpr (some [("w", ["x"])])
            (some ⟨some [("k0", ["v0"])], "att"⟩) "resp") k' :=
  Meta_frame_effect (Expr.CompositeExpr (some [("w", ["x"])])
      (some ⟨some [("k0", ["v0"])], "att"⟩) "resp")
    (some [("k0", ["v0"])]) rfl "k" ["v"] [] []

/-- C9: a `Meta` call with an empty value list is accepted without error and
appends nothing: the receiving map still exists afterwards with the key
installed, and the value sequence read under the key is exactly the
previously stored sequence (empty on a fresh node). -/
theorem Meta_empty_values (e : Expr) (me : MetaExpr)
    (h : receiverMeta e = some me) (k : String) (stk : List Expr)
    (errs : List DSLError) :
    ∃ e' m', Meta k [] ⟨e :: stk, errs⟩ = some ⟨e' :: stk, errs⟩ ∧
      receiverMeta e' = some (some m') ∧
      mapGet m' k = some (metaValues me k) := by
  rcases receiverMeta_cases e me h with hm | ⟨wm, a, r, rfl, rfl⟩
  · have hsome : (metaOf e).isSome := by rw [hm]; rfl
    refine ⟨setMeta e (appendMeta me k []),
      mapSet (me.getD []) k (metaValues me k),
      Meta_direct e me hm k [] stk errs, ?_, mapGet_mapSet_self _ _ _⟩
    rw [receiverMeta_setMeta e _ hsome, appendMeta_nil]
  · refine ⟨Expr.CompositeExpr wm
      (some { a with Meta := appendMeta a.Meta k [] }) r,
      mapSet (a.Meta.getD []) k (metaValues a.Meta k),
      Meta_composite_some wm a r k [] stk errs, ?_,
      mapGet_mapSet_self _ _ _⟩
    simp [receiverMeta, appendMeta_nil]

/-- Witness for C9: a `Meta` call with no values on a fresh Method node
records no error and installs the key with an empty sequence. -/
theorem Meta_empty_values_witness :
    ∃ e' m', Meta "k" [] ⟨Expr.MethodExpr none "m" :: [], []⟩ =
        some ⟨e' :: [], []⟩ ∧
      receiverMeta e' = some (some m') ∧
      mapGet m' "k" = some (metaValues (none : MetaExpr) "k") :=
  Meta_empty_values (Expr.MethodExpr none "m") none rfl "k" [] []

/-- C10: `Meta` is total over the dynamic kind of the current expression:
under the precondition that a composite frame's `Attribute()` is non-nil,
every call returns normally (no branch dereferences nil or aborts), and any
kind outside the eleven directly handled variants and the composite
capability falls through to the incompatible-context branch. -/
theorem Meta_total_safe (k : String) (vs : List String) (s : EvalState)
    (h : ∀ wm r stk, s.stack ≠ Expr.CompositeExpr wm none r :: stk) :
    (Meta k vs s).isSome = true ∧
    ∀ r stk, s.stack = Expr.OtherExpr r :: stk →
      Meta k vs s = some (IncompatibleDSL s) := by
  obtain ⟨stack, errors⟩ := s
  cases stack with
  | nil =>
    exact ⟨rfl, fun r stk hc => List.noConfusion hc⟩
  | cons e stk' =>
    cases e
    case CompositeExpr wm att r =>
      cases att with
      | none => exact absurd rfl (h wm r stk')
      | some a =>
        refine ⟨by simp [Meta, Current], ?_⟩
        intro r' stk'' hc
        injection hc with h1 h2
        exact Expr.noConfusion h1
    case OtherExpr r =>
      exact ⟨by simp [Meta, Current], fun r' stk'' hc => by
        simp [Meta, Current, IncompatibleDSL]⟩
    all_goals
      refine ⟨by simp [Meta, Current], ?_⟩
    all_goals
      intro r' stk'' hc
    all_goals
      injection hc with h1 h2
    all_goals
      exact Expr.noConfusion h1

/-- Witness for C10: a `Meta` call on a stack whose top is an API node (so
no composite frame with a nil attribute is present) returns normally. -/
theorem Meta_total_safe_witness :
    ((Meta "k" ["v"] ⟨Expr.APIExpr none "api" :: [], []⟩).isSome = true ∧
      ∀ r stk, (⟨Expr.APIExpr none "api" :: [], []⟩ : EvalState).stack =
          Expr.OtherExpr r :: stk →
        Meta "k" ["v"] ⟨Expr.APIExpr none "api" :: [], []⟩ =
          some (IncompatibleDSL ⟨Expr.APIExpr none "api" :: [], []⟩)) :=
  Meta_total_safe "k" ["v"] ⟨Expr.APIExpr none "api" :: [], []⟩
    (by
      intro wm r stk hc
      injection hc with h1 h2
      exact Expr.noConfusion h1)

end Goa
